import Mathlib

/-!
Verification of the lc3-toolchain source-model pipeline: a shallow embedding of
the raw AST data model (src/ast/raw_ast.rs), the attachment transform in its two
variants (src/ast/processed_ast.rs and src/fmt_ast.rs), the line/column look
table, the layout formatter (src/fmt/formatter.rs) and the style linter
(src/lint/lint.rs), together with theorems settling the frozen claims about them.

Text is embedded at the character level (`String` / `List Char`); all source
content is ASCII, so Rust byte offsets and lengths coincide with character
offsets and lengths here.
-/

set_option maxRecDepth 4096

namespace LC3

/-- Byte-offset range of a token, `raw_ast.rs` struct `Span` (field `end` is
named `stop` here because `end` is a Lean keyword). -/
structure Span where
  start : Nat
  stop : Nat
deriving DecidableEq

/-- A comment token: verbatim text (starting with the line-comment marker) plus span. -/
structure Comment where
  content : String
  span : Span
deriving DecidableEq

/-- A label token: identifier text, possibly carrying a trailing colon, plus span. -/
structure Label where
  content : String
  span : Span
deriving DecidableEq

/-- The eight register names, `raw_ast.rs` enum `RegisterType`. -/
inductive RegisterType where
  | R0 | R1 | R2 | R3 | R4 | R5 | R6 | R7
deriving DecidableEq

/-- A register operand: raw text, span and decoded register. -/
structure Register where
  content : String
  span : Span
  register_type : RegisterType
deriving DecidableEq

/-- A label-reference operand (raw text + span). -/
structure LabelReference where
  content : String
  span : Span
deriving DecidableEq

/-- A string-literal operand (raw text + span). -/
structure StringLiteral where
  content : String
  span : Span
deriving DecidableEq

/-- An immediate operand, carried as raw text (the core performs no numeric parsing). -/
structure Immediate where
  content : String
  span : Span
deriving DecidableEq

/-- A hex-address operand, carried as raw text. -/
structure HexAddress where
  content : String
  span : Span
deriving DecidableEq

/-- Branch condition-code selector, `raw_ast.rs` enum `BrType`. -/
inductive BrType where
  | N | Z | P | Nz | Zp | Np | Nzp | None
deriving DecidableEq

/-- The closed set of instruction shapes, `raw_ast.rs` enum `InstructionType`.
Rust `Either<Register, Immediate>` is embedded as `Sum Register Immediate`. -/
inductive InstructionType where
  | Add (r1 r2 : Register) (roi : Sum Register Immediate)
  | And (r1 r2 : Register) (roi : Sum Register Immediate)
  | Not (r1 r2 : Register)
  | Ld (r : Register) (lr : LabelReference)
  | Ldi (r : Register) (lr : LabelReference)
  | Ldr (r1 r2 : Register) (im : Immediate)
  | Lea (r : Register) (lr : LabelReference)
  | St (r : Register) (lr : LabelReference)
  | Sti (r : Register) (lr : LabelReference)
  | Str (r1 r2 : Register) (im : Immediate)
  | Br (bt : BrType) (lr : LabelReference)
  | Jmp (r : Register)
  | Jsr (lr : LabelReference)
  | Jsrr (r : Register)
  | Nop
  | Ret
  | Halt
  | Puts
  | Getc
  | Out
  | In
  | Trap (ha : HexAddress)
deriving DecidableEq

/-- An instruction: decoded shape, raw mnemonic text and mnemonic span. -/
structure Instruction where
  instruction_type : InstructionType
  content : String
  span : Span
deriving DecidableEq

/-- The closed set of directive shapes, `raw_ast.rs` enum `DirectiveType`. -/
inductive DirectiveType where
  | ORIG (ha : HexAddress)
  | END
  | BLKW (im : Immediate)
  | FILL (im : Immediate)
  | STRINGZ (s : StringLiteral)
deriving DecidableEq

/-- A directive: decoded shape, raw directive text (marker included) and span. -/
structure Directive where
  directive_type : DirectiveType
  content : String
  span : Span
deriving DecidableEq

/-- Raw program item, `raw_ast.rs` enum `ProgramItem`: labels are still separate
top-level items at this stage. -/
inductive RawProgramItem where
  | comment (c : Comment)
  | label (l : Label)
  | instruction (i : Instruction)
  | directive (d : Directive)
deriving DecidableEq

/-- Resolved 1-based line/column pair, `processed_ast.rs` struct `LineColumn`. -/
structure LineColumn where
  line : Nat
  column : Nat
deriving DecidableEq

/-- Intermediate item after label attachment but before position annotation:
`processed_ast.rs` enum `RawProgramItem` (called `ProgramItem` in `fmt_ast.rs`). -/
inductive PreProgramItem where
  | comment (c : Comment)
  | instruction (labels : List Label) (i : Instruction) (cm : Option Comment)
  | directive (labels : List Label) (d : Directive) (cm : Option Comment)
  | eol (labels : List Label)
deriving DecidableEq

/-- Processed program item carrying its resolved position: `processed_ast.rs`
enum `ProgramItem`, identical in shape to `fmt_ast.rs` enum
`FormatterProgramItem`; one Lean type serves both files. -/
inductive ProgramItem where
  | comment (c : Comment) (lc : LineColumn)
  | instruction (labels : List Label) (i : Instruction) (cm : Option Comment) (lc : LineColumn)
  | directive (labels : List Label) (d : Directive) (cm : Option Comment) (lc : LineColumn)
  | eol (labels : List Label)
deriving DecidableEq

/-- Item predicate `is_comment` from `processed_ast.rs` / `fmt_ast.rs`. -/
def ProgramItem.is_comment : ProgramItem → Bool
  | .comment _ _ => true
  | _ => false

/-- Item predicate `is_instruction`. -/
def ProgramItem.is_instruction : ProgramItem → Bool
  | .instruction _ _ _ _ => true
  | _ => false

/-- Item predicate `is_directive`. -/
def ProgramItem.is_directive : ProgramItem → Bool
  | .directive _ _ _ _ => true
  | _ => false

/-- Item predicate `is_eol`. -/
def ProgramItem.is_eol : ProgramItem → Bool
  | .eol _ => true
  | _ => false

/-- Predicate `LineColumn::at_the_same_line`: two locations are on the same
line iff their line numbers are equal. -/
def LineColumn.at_the_same_line (a b : LineColumn) : Bool :=
  a.line = b.line

/-! ## Source position index (`LineColumnLookTable`, processed_ast.rs lines 174-219)

The table is built from `file_content.lines()`. Rust `str::lines` splits the
text at every newline character, drops a final empty piece (no trailing empty
line for a text ending in a newline), and removes a single trailing carriage
return from each piece. -/

/-- Split a character list at every newline; the result always has one more
piece than the text has newline characters. -/
def lines_split : List Char → List (List Char)
  | [] => [[]]
  | c :: rest =>
    if c = '\n' then [] :: lines_split rest
    else
      match lines_split rest with
      | [] => [[c]]
      | p :: ps => (c :: p) :: ps

/-- Drop the final piece of a split when it is empty, as Rust `str::lines`
does for a text that ends in a newline (or is empty). -/
def drop_last_empty (ps : List (List Char)) : List (List Char) :=
  if ps.getLast? = some [] then ps.dropLast else ps

/-- Remove a single trailing carriage return, as Rust `str::lines` does on
every piece. -/
def rstrip_cr (p : List Char) : List Char :=
  if p.getLast? = some '\r' then p.dropLast else p

/-- Embedding of Rust `str::lines` over the file content. -/
def rust_lines (t : List Char) : List (List Char) :=
  (drop_last_empty (lines_split t)).map rstrip_cr

/-- The `line_start_indices` map built by `LineColumnLookTable::new`: one entry
`(char_count, line_number)` per line, with `char_count` advanced by the line's
length plus one for the newline character, and 1-based line numbers. (The
constant column-start component stored in the Rust map is always 1 and never
read, so it is omitted.) -/
def build_line_starts : Nat → Nat → List (List Char) → List (Nat × Nat)
  | _, _, [] => []
  | char_count, line_number, line :: rest =>
    (char_count, line_number) :: build_line_starts (char_count + line.length + 1) (line_number + 1) rest

/-- The scan inside `LineColumnLookTable::get_line_and_column`: for each entry,
fetch the stored line's length and test whether the offset falls inside that
line's half-open range. The Rust code iterates a `HashMap` in unspecified
order; the entries' ranges are pairwise disjoint, so the first match in any
order is the unique match and iteration in line order is faithful. An
exhausted iteration is the `unreachable!()` panic, embedded as `none`. -/
def get_line_and_column_go (lines : List (List Char)) :
    List (Nat × Nat) → Nat → Option LineColumn
  | [], _ => none
  | (start_index, line_number) :: rest, start =>
    let line_len := ((lines.get? (line_number - 1)).getD []).length
    if start_index ≤ start ∧ start < start_index + line_len then
      some ⟨line_number, start - start_index + 1⟩
    else get_line_and_column_go lines rest start

/-- `LineColumnLookTable::new` followed by `get_line_and_column` on the span's
start offset. -/
def get_line_and_column (t : List Char) (start : Nat) : Option LineColumn :=
  get_line_and_column_go (rust_lines t) (build_line_starts 0 1 (rust_lines t)) start

/-- Ground truth, defined directly on the text: the 1-based line containing
offset `o` is one more than the number of newline characters before `o`. -/
def line_of (t : List Char) (o : Nat) : Nat :=
  1 + (t.take o).count '\n'

/-- Ground truth: the offset at which the line containing `o` starts, i.e. `o`
minus the distance back to the previous newline. -/
def line_start_of (t : List Char) (o : Nat) : Nat :=
  o - ((t.take o).reverse.takeWhile (fun c => c ≠ '\n')).length

/-- Ground truth: the 1-based column of offset `o`
(`column = offset - line_start_offset + 1`). -/
def column_of (t : List Char) (o : Nat) : Nat :=
  o - line_start_of t o + 1

/-! ## Attachment transform

`StandardTransform` exists twice in the repository: `src/ast/processed_ast.rs`
(used by `get_ast`, hence by the linter) and `src/fmt_ast.rs` (used by the
`fmt` binary). Label attachment and position annotation are identical in the
two files; they differ only in how the hybrid-comment pass iterates. -/

/-- One step of `StandardTransform::hybrid_label`: the label buffer is a
`pest::Stack` (push = cons, pop = head), and on a statement the buffer is
drained by repeated `pop` into the statement's label list. -/
def hybrid_label (label_buffer : List Label) :
    RawProgramItem → List Label × Option PreProgramItem
  | .label l => (l :: label_buffer, none)
  | .instruction i => ([], some (.instruction label_buffer i none))
  | .directive d => ([], some (.directive label_buffer d none))
  | .comment c => (label_buffer, some (.comment c))

/-- The label-attachment phase of `StandardTransform::transform`: map
`hybrid_label` over the items threading the buffer, and, when the buffer is
non-empty at end of input, drain it into a single trailing `EOL` item. -/
def hybrid_label_go : List Label → List RawProgramItem → List PreProgramItem
  | label_buffer, [] =>
    if label_buffer.isEmpty then [] else [.eol label_buffer]
  | label_buffer, item :: rest =>
    match hybrid_label label_buffer item with
    | (buffer', none) => hybrid_label_go buffer' rest
    | (buffer', some pre) => pre :: hybrid_label_go buffer' rest

/-- Label attachment starting from the empty buffer, as `transform` does. -/
def hybrid_label_pass (items : List RawProgramItem) : List PreProgramItem :=
  hybrid_label_go [] items

/-- `StandardTransform::add_line_info`: annotate an item with the line/column
of its span's start offset. The `unreachable!()` panic inside
`get_line_and_column` surfaces here as the junk location `(0, 0)`. -/
def add_line_info (t : List Char) : PreProgramItem → ProgramItem
  | .comment c => .comment c ((get_line_and_column t c.span.start).getD ⟨0, 0⟩)
  | .instruction labels i cm =>
    .instruction labels i cm ((get_line_and_column t i.span.start).getD ⟨0, 0⟩)
  | .directive labels d cm =>
    .directive labels d cm ((get_line_and_column t d.span.start).getD ⟨0, 0⟩)
  | .eol labels => .eol labels

/-- `StandardTransform::hybrid_comment`, shared shape of both files: given the
`forward_next_comment` flag, the current item and the (optional) next item,
produce the updated flag and the optionally emitted item. A comment is dropped
exactly when the flag is cleared; a statement whose successor is a same-line
comment adopts it and clears the flag. -/
def hybrid_comment (forward_next_comment : Bool) (curr : ProgramItem)
    (next : Option ProgramItem) : Bool × Option ProgramItem :=
  match curr with
  | .comment c lc =>
    if forward_next_comment then (forward_next_comment, some (.comment c lc))
    else (true, none)
  | .instruction labels i cm lc =>
    match next with
    | some (.comment c lc_comment) =>
      if lc_comment.at_the_same_line lc then
        (false, some (.instruction labels i (some c) lc))
      else (forward_next_comment, some (.instruction labels i cm lc))
    | _ => (forward_next_comment, some (.instruction labels i cm lc))
  | .directive labels d cm lc =>
    match next with
    | some (.comment c lc_comment) =>
      if lc_comment.at_the_same_line lc then
        (false, some (.directive labels d (some c) lc))
      else (forward_next_comment, some (.directive labels d cm lc))
    | _ => (forward_next_comment, some (.directive labels d cm lc))
  | .eol labels => (forward_next_comment, some (.eol labels))

/-- The hybrid-comment pass of `processed_ast.rs` `transform` (lines 72-78):
every item is visited with a one-item lookahead obtained by
`labelled_items.get(index + 1)`, so the final item is visited with `none`. -/
def ast_hybrid_pass : Bool → List ProgramItem → List ProgramItem
  | _, [] => []
  | fwd, curr :: rest =>
    match hybrid_comment fwd curr rest.head? with
    | (fwd', none) => ast_hybrid_pass fwd' rest
    | (fwd', some item) => item :: ast_hybrid_pass fwd' rest

/-- The hybrid-comment pass of `fmt_ast.rs` `transform` (lines 73-79): the item
list is iterated by `tuple_windows`, mapping each adjacent pair `(prev, curr)`
to `hybrid_comment(prev, curr)`, so an item is only ever emitted as the first
element of a window and a single-item list yields no window at all. -/
def fmt_hybrid_windows : Bool → List ProgramItem → List ProgramItem
  | _, [] => []
  | _, [_] => []
  | fwd, x :: y :: rest =>
    match hybrid_comment fwd x (some y) with
    | (fwd', none) => fmt_hybrid_windows fwd' (y :: rest)
    | (fwd', some item) => item :: fmt_hybrid_windows fwd' (y :: rest)

/-- `StandardTransform::transform` of `processed_ast.rs`: label attachment,
position annotation, then (when hybrid inline comments are enabled) the
lookahead-based comment pass with the flag initially set. -/
def ast_transform (hybrid_inline_comment : Bool) (t : List Char)
    (program : List RawProgramItem) : List ProgramItem :=
  let labelled_items := (hybrid_label_pass program).map (add_line_info t)
  if hybrid_inline_comment then ast_hybrid_pass true labelled_items
  else labelled_items

/-- `StandardTransform::transform` of `fmt_ast.rs`: identical to
`ast_transform` except that the comment pass iterates sliding two-item
windows. This is the version the formatter binary runs. -/
def fmt_transform (hybrid_inline_comment : Bool) (t : List Char)
    (program : List RawProgramItem) : List ProgramItem :=
  let labelled_items := (hybrid_label_pass program).map (add_line_info t)
  if hybrid_inline_comment then fmt_hybrid_windows true labelled_items
  else labelled_items

/-! ## Layout formatter (`src/fmt/formatter.rs`) -/

/-- Layout configuration, `formatter.rs` struct `FormatStyle` (`u8` fields are
embedded as `Nat`). -/
structure FormatStyle where
  indent_directive : Nat
  indent_instruction : Nat
  indent_label : Nat
  indent_min_comment_from_block : Nat
  space_block_to_comment : Nat
  space_comment_stick_to_body : Nat
  space_from_label_block : Nat
  space_from_start_end_block : Nat
  colon_after_label : Bool
deriving DecidableEq

/-- A run of `n` space characters (`Formatter::add_indent` / `add_indent`). -/
def spaces (n : Nat) : String :=
  ⟨List.replicate n ' '⟩

/-- A run of `n` newline characters (`Formatter::add_newline`). -/
def newlines (n : Nat) : String :=
  ⟨List.replicate n '\n'⟩

/-- Whitespace test used to embed Rust `str::trim` (all comment text in this
toolchain is ASCII, where Rust whitespace is exactly these characters). -/
def is_ws_char (c : Char) : Bool :=
  c = ' ' ∨ c = '\t' ∨ c = '\n' ∨ c = '\r'

/-- Rust `str::trim` on a character list: whitespace removed from both ends. -/
def trim_chars (l : List Char) : List Char :=
  ((l.dropWhile is_ws_char).reverse.dropWhile is_ws_char).reverse

/-- `print_comment` (formatter.rs lines 305-315): strip the leading `;`,
trim the remainder, and re-attach the marker. A stored comment that does not
begin with `;` hits the `unreachable!()` panic, embedded as `none`. -/
def print_comment (comment : Comment) : Option String :=
  match comment.content.data with
  | ';' :: rest => some ⟨';' :: trim_chars rest⟩
  | _ => none

/-- Total wrapper used where the formatter calls `print_comment` directly:
the panic branch is never reached on parser-produced comments (they always
begin with `;`), and surfaces here as the empty string. -/
def print_comment_total (comment : Comment) : String :=
  (print_comment comment).getD ""

/-- `print_label` (formatter.rs lines 317-335): normalize the trailing colon
according to `colon_after_label`. -/
def print_label (style : FormatStyle) (label : Label) : String :=
  if style.colon_after_label then
    if label.content.data.getLast? = some ':' then label.content
    else label.content ++ ":"
  else
    if label.content.data.getLast? = some ':' then ⟨label.content.data.dropLast⟩
    else label.content

/-- `print_register_or_immediate`. -/
def print_register_or_immediate : Sum Register Immediate → String
  | .inl r => r.content
  | .inr im => im.content

/-- `print_instruction` (formatter.rs lines 254-303): mnemonic text followed by
the operand list, with no trailing space when there are no operands. -/
def print_instruction (instruction : Instruction) : String :=
  let operands : String :=
    match instruction.instruction_type with
    | .Add r1 r2 roi | .And r1 r2 roi =>
      r1.content ++ ", " ++ r2.content ++ ", " ++ print_register_or_immediate roi
    | .Not r1 r2 => r1.content ++ ", " ++ r2.content
    | .Ldr r1 r2 im | .Str r1 r2 im =>
      r1.content ++ ", " ++ r2.content ++ ", " ++ im.content
    | .Ld r1 lr | .Ldi r1 lr | .Lea r1 lr | .St r1 lr | .Sti r1 lr =>
      r1.content ++ ", " ++ lr.content
    | .Br _ lr => lr.content
    | .Jmp r | .Jsrr r => r.content
    | .Jsr lr => lr.content
    | .Nop | .Ret | .Halt | .Puts | .Getc | .Out | .In => ""
    | .Trap ha => ha.content
  if operands.isEmpty then instruction.content
  else instruction.content ++ " " ++ operands

/-- `print_directive` (formatter.rs lines 345-358). -/
def print_directive (directive : Directive) : String :=
  let operands : String :=
    match directive.directive_type with
    | .ORIG address => address.content
    | .END => ""
    | .BLKW im | .FILL im => im.content
    | .STRINGZ s => s.content
  if operands.isEmpty then directive.content
  else directive.content ++ " " ++ operands

/-- Test for the origin directive (`matches!(…, DirectiveType::ORIG(..))`). -/
def Directive.is_orig (d : Directive) : Bool :=
  match d.directive_type with
  | .ORIG _ => true
  | _ => false

/-- Test for the end-of-program directive (`matches!(…, DirectiveType::END)`). -/
def Directive.is_end (d : Directive) : Bool :=
  match d.directive_type with
  | .END => true
  | _ => false

/-- `FormattedDisplay::formatted_display` (formatter.rs lines 190-252): render
one item into (label lines, body line, optional trailing-comment text). The
origin and end-of-program directives are rendered flush (no directive indent). -/
def formatted_display (style : FormatStyle) :
    ProgramItem → List String × String × Option String
  | .comment c _ => ([], print_comment_total c, none)
  | .instruction labels i cm _ =>
    let label_indent := spaces (if labels.isEmpty then 0 else style.indent_label)
    (labels.map (fun l => label_indent ++ print_label style l),
     spaces style.indent_instruction ++ print_instruction i,
     cm.map print_comment_total)
  | .directive labels d cm _ =>
    let label_indent := spaces (if labels.isEmpty then 0 else style.indent_label)
    let directive_indent :=
      spaces (if d.is_end ∨ d.is_orig then 0 else style.indent_directive)
    (labels.map (fun l => label_indent ++ print_label style l),
     directive_indent ++ print_directive d,
     cm.map print_comment_total)
  | .eol labels =>
    let label_indent := spaces (if labels.isEmpty then 0 else style.indent_label)
    (labels.map (fun l => label_indent ++ print_label style l), "", none)

/-- Whether the optional next item is code (`next.unwrap().is_directive() ||
next.unwrap().is_instruction()` guarded by `next.is_some()`). -/
def next_is_code : Option ProgramItem → Bool
  | some n => n.is_directive || n.is_instruction
  | none => false

/-- Whether the optional next item is a standalone comment. -/
def next_is_comment : Option ProgramItem → Bool
  | some n => n.is_comment
  | none => false

/-- The `space_comment_stick_to_body` block of `control_padding`
(formatter.rs lines 104-112). -/
def control_padding_comment_stick (style : FormatStyle) (current : ProgramItem)
    (next : Option ProgramItem) : Nat :=
  if style.space_comment_stick_to_body ≠ 0 then
    if current.is_comment ∧ next_is_code next then style.space_comment_stick_to_body
    else 0
  else 0

/-- The `space_block_to_comment` block of `control_padding` (formatter.rs
lines 114-136): an origin-directive `current` is excluded to avoid
conflicting with the start/end block. -/
def control_padding_block_to_comment (style : FormatStyle) (current : ProgramItem)
    (next : Option ProgramItem) : Nat :=
  if style.space_block_to_comment ≠ 0 then
    match current with
    | .directive _ d _ _ =>
      if d.is_orig then 0
      else if (current.is_directive || current.is_instruction) ∧ next_is_comment next then
        style.space_block_to_comment
      else 0
    | _ =>
      if (current.is_directive || current.is_instruction) ∧ next_is_comment next then
        style.space_block_to_comment
      else 0
  else 0

/-- The `space_from_label_block` block of `control_padding` (formatter.rs
lines 138-159). -/
def control_padding_label_block (style : FormatStyle) (current : ProgramItem)
    (next : Option ProgramItem) : Nat :=
  if style.space_from_label_block ≠ 0 then
    match current with
    | .instruction curr_label _ _ _ | .directive curr_label _ _ _ =>
      match next with
      | none => 0
      | some (.instruction next_label _ _ _) | some (.directive next_label _ _ _) =>
        if curr_label.isEmpty ∧ ¬ next_label.isEmpty then style.space_from_label_block
        else 0
      | some (.eol _) | some (.comment _ _) => 0
    | .eol _ | .comment _ _ => 0
  else 0

/-- The `padding_start_end_directive_block` block of `control_padding`
(formatter.rs lines 161-185): only a directive `current` is inspected — the
origin directive unconditionally, any other directive only through its
successor being the end directive. -/
def control_padding_start_end (style : FormatStyle) (current : ProgramItem)
    (next : Option ProgramItem) : Nat :=
  if style.space_from_start_end_block ≠ 0 then
    match current with
    | .directive _ d _ _ =>
      if d.is_orig then style.space_from_start_end_block
      else
        match next with
        | some (.directive _ d' _ _) =>
          if d'.is_end then style.space_from_start_end_block else 0
        | _ => 0
    | _ => 0
  else 0

/-- `Formatter::control_padding` (formatter.rs lines 97-187): the number of
extra blank lines after `current`, accumulated over the four blocks above
exactly as the source adds them into `paddings`. -/
def control_padding (style : FormatStyle) (current : ProgramItem)
    (next : Option ProgramItem) : Nat :=
  control_padding_comment_stick style current next +
    control_padding_block_to_comment style current next +
    control_padding_label_block style current next +
    control_padding_start_end style current next

/-- The newline count stored per item in `Formatter::format` (line 49):
`control_padding(current, next) + 1`, the extra blank lines plus exactly one
line separator for the item itself. -/
def line_padding (style : FormatStyle) (current : ProgramItem)
    (next : Option ProgramItem) : Nat :=
  control_padding style current next + 1

/-- Pair each item with its successor (`program.items().get(index + 1)`). -/
def with_next : List ProgramItem → List (ProgramItem × Option ProgramItem)
  | [] => []
  | [x] => [(x, none)]
  | x :: y :: rest => (x, some y) :: with_next (y :: rest)

/-- The rendered body of an item. -/
def body_of (style : FormatStyle) (item : ProgramItem) : String :=
  (formatted_display style item).2.1

/-- The global comment start column (formatter.rs lines 53-54): the maximum
body width over all items plus `indent_min_comment_from_block`, with 0 for an
empty program. -/
def comment_column (style : FormatStyle) (items : List ProgramItem) : Nat :=
  (items.map (fun it => (body_of style it).length)).foldr max 0 +
    style.indent_min_comment_from_block

/-- The label block emitted before an item's body: each rendered label followed
by a newline (formatter.rs lines 58-66). -/
def labels_text (labels : List String) : String :=
  labels.foldl (fun acc l => acc ++ l ++ "\n") ""

/-- The visible line of an item: body, then padding spaces up to the global
comment column (`missing_indent = comment_start_column - body.len()`,
appended unconditionally), then the trailing comment if any. -/
def main_line (style : FormatStyle) (items : List ProgramItem)
    (item : ProgramItem) : String :=
  let body := body_of style item
  body ++ spaces (comment_column style items - body.length) ++
    ((formatted_display style item).2.2.getD "")

/-- Everything `Formatter::format` appends to the buffer for one item: the
label block, the visible line and the newline run. -/
def item_text (style : FormatStyle) (items : List ProgramItem)
    (x : ProgramItem × Option ProgramItem) : String :=
  labels_text (formatted_display style x.1).1 ++ main_line style items x.1 ++
    newlines (line_padding style x.1 x.2)

/-- `Formatter::format` (formatter.rs lines 40-77): the full output byte
sequence for a processed program. -/
def format_program (style : FormatStyle) (items : List ProgramItem) : String :=
  ((with_next items).map (item_text style items)).foldl (· ++ ·) ""

/-! ## Style linter (`src/lint/lint.rs`) -/

/-- Naming conventions, `lint.rs` enum `CaseStyle`. -/
inductive CaseStyle where
  | LowerCamelCase
  | UpperCamelCase
  | SnakeCase
  | ScreamingSnakeCase
deriving DecidableEq

/-- Lowercase ASCII letter. -/
def is_lower_letter (c : Char) : Bool :=
  'a' ≤ c ∧ c ≤ 'z'

/-- Uppercase ASCII letter. -/
def is_upper_letter (c : Char) : Bool :=
  'A' ≤ c ∧ c ≤ 'Z'

/-- ASCII digit. -/
def is_digit_char (c : Char) : Bool :=
  '0' ≤ c ∧ c ≤ '9'

/-- ASCII letter or digit. -/
def is_alnum_char (c : Char) : Bool :=
  is_lower_letter c || is_upper_letter c || is_digit_char c

/-- Split a character list at every occurrence of `sep`; the result has one
more piece than the list has separators, and no piece contains `sep`. -/
def split_on_char (sep : Char) : List Char → List (List Char)
  | [] => [[]]
  | c :: rest =>
    if c = sep then [] :: split_on_char sep rest
    else
      match split_on_char sep rest with
      | [] => [[c]]
      | p :: ps => (c :: p) :: ps

/-- The regex `SNAKE_CASE` of lint.rs, `^[a-z]+(?:_[a-z0-9]+)*$`: splitting at
underscores, the first segment is a non-empty run of lowercase letters and
every later segment is a non-empty run of lowercase letters or digits. -/
def snake_case_match (l : List Char) : Bool :=
  match split_on_char '_' l with
  | [] => false
  | seg :: segs =>
    (!seg.isEmpty && seg.all is_lower_letter) &&
      segs.all (fun s => !s.isEmpty && s.all (fun c => is_lower_letter c || is_digit_char c))

/-- The regex `SCREAMING_SNAKE` of lint.rs, `^[A-Z0-9]+(?:_[A-Z0-9]+)*$`:
splitting at underscores, every segment is a non-empty run of uppercase
letters or digits. -/
def screaming_snake_match (l : List Char) : Bool :=
  (split_on_char '_' l).all
    (fun s => !s.isEmpty && s.all (fun c => is_upper_letter c || is_digit_char c))

/-- The regex `LOWER_CAMEL` of lint.rs, `^[a-z]+(?:[A-Z][a-z0-9]*)*$`: all
characters are ASCII alphanumeric and the maximal leading run of
non-uppercase characters is a non-empty run of lowercase letters (everything
from the first uppercase letter on splits into groups `[A-Z][a-z0-9]*`). -/
def lower_camel_match (l : List Char) : Bool :=
  let leading := l.takeWhile (fun c => !is_upper_letter c)
  (!leading.isEmpty && leading.all is_lower_letter) && l.all is_alnum_char

/-- The regex `UPPER_CAMEL` of lint.rs, `^[A-Z][a-z0-9]*(?:[A-Z][a-z0-9]*)*$`:
all characters are ASCII alphanumeric and the first one is an uppercase
letter. -/
def upper_camel_match (l : List Char) : Bool :=
  match l with
  | [] => false
  | c :: _ => is_upper_letter c && l.all is_alnum_char

/-- `StyleCheckerVisitor::get_identifier_style` (lint.rs lines 158-170): try
the four shape patterns in the fixed order snake, screaming-snake, lower
camel, upper camel. -/
def get_identifier_style (identifier : String) : Option CaseStyle :=
  if snake_case_match identifier.data then some .SnakeCase
  else if screaming_snake_match identifier.data then some .ScreamingSnakeCase
  else if lower_camel_match identifier.data then some .LowerCamelCase
  else if upper_camel_match identifier.data then some .UpperCamelCase
  else none

/-- Outcome of `StyleCheckerVisitor::check_keyword_style`, embedding the Rust
type `Result<(), Option<CaseStyle>>`: `ok` is `Ok(())`, `wrongStyle f` is
`Err(Some(f))`, `unknownStyle` is `Err(None)`. -/
inductive CaseCheck where
  | ok
  | wrongStyle (found : CaseStyle)
  | unknownStyle
deriving DecidableEq

/-- `StyleCheckerVisitor::check_keyword_style` (lint.rs lines 138-157): an
unclassifiable keyword is an unknown-style error; a keyword classified as the
required style passes; a single-word snake-case keyword with no underscore
also passes against required lowerCamelCase; anything else is a wrong-style
error carrying the found style. -/
def check_keyword_style (keyword : String) (case_style : CaseStyle) : CaseCheck :=
  match get_identifier_style keyword with
  | none => .unknownStyle
  | some found_style =>
    if found_style = case_style then .ok
    else if found_style = .SnakeCase ∧ keyword.data.contains '_' = false ∧
        case_style = .LowerCamelCase then .ok
    else .wrongStyle found_style

/-- The error assembly at the call sites (lint.rs `label_error_to_error`,
`visit_instruction`, `visit_directive`): a failed check is paired with the
required style, so the reported error carries the required style and, for a
wrong-style error, the found style. -/
def keyword_case_error (keyword : String) (required : CaseStyle) :
    Option (CaseStyle × Option CaseStyle) :=
  match check_keyword_style keyword required with
  | .ok => none
  | .wrongStyle f => some (required, some f)
  | .unknownStyle => some (required, none)

/-! ## Spec-modelled front end

The grammar file `lc3.pest` referenced by the binaries is not part of `src/`;
the tokenizer below is modelled from the spec for the fragment needed by the
claims that must run the whole pipeline. -/

/-- Whether position `o` holds a non-whitespace character of the text.

Modelled from the spec: the external grammar (`lc3.pest`, not under `src/`)
produces token `Span`s into the file text; every token (label, mnemonic,
operand, comment marker) begins at a non-whitespace character, so a
token-span start is a non-whitespace content position. -/
def token_start_pos (t : List Char) (o : Nat) : Bool :=
  match t.get? o with
  | some c => !is_ws_char c
  | none => false

/-- Uppercase a string (ASCII), used for case-insensitive keyword matching. -/
def upper_str (s : String) : String :=
  ⟨s.data.map Char.toUpper⟩

/-- Tokenizer state: between tokens, inside a word token (start offset and
accumulated characters in reverse), or inside a comment token. -/
inductive TokMode where
  | idle
  | word (start : Nat) (acc : List Char)
  | cmt (start : Nat) (acc : List Char)

/-- Modelled from the spec: the tokenizer half of the external grammar
(`lc3.pest`, not under `src/`). Whitespace separates tokens; a token starting
with `;` is a comment running to the end of its line; any other token is a
maximal run of non-whitespace characters. Each token is paired with its byte
offset. -/
def tok_go : Nat → TokMode → List Char → List (Nat × String)
  | _, .idle, [] => []
  | _, .word s acc, [] => [(s, ⟨acc.reverse⟩)]
  | _, .cmt s acc, [] => [(s, ⟨acc.reverse⟩)]
  | o, .idle, c :: rest =>
    if is_ws_char c then tok_go (o + 1) .idle rest
    else if c = ';' then tok_go (o + 1) (.cmt o [c]) rest
    else tok_go (o + 1) (.word o [c]) rest
  | o, .word s acc, c :: rest =>
    if is_ws_char c then (s, ⟨acc.reverse⟩) :: tok_go (o + 1) .idle rest
    else tok_go (o + 1) (.word s (c :: acc)) rest
  | o, .cmt s acc, c :: rest =>
    if c = '\n' then (s, ⟨acc.reverse⟩) :: tok_go (o + 1) .idle rest
    else tok_go (o + 1) (.cmt s (c :: acc)) rest

/-- Tokenize a whole text from offset 0. -/
def tok_words (t : List Char) : List (Nat × String) :=
  tok_go 0 .idle t

/-- The no-operand mnemonics and their decoded shapes (raw_ast.rs branch
dispatch for `Nop`, `Ret`, `Halt`, `Puts`, `Getc`, `Out`, `In`). -/
def noop_instruction_type (u : String) : Option InstructionType :=
  if u = "NOP" then some .Nop
  else if u = "RET" then some .Ret
  else if u = "HALT" then some .Halt
  else if u = "PUTS" then some .Puts
  else if u = "GETC" then some .Getc
  else if u = "OUT" then some .Out
  else if u = "IN" then some .In
  else none

/-- A word usable as a label: non-empty run of letters, digits or underscores,
with an optional trailing colon. -/
def is_label_word (w : String) : Bool :=
  let core := if w.data.getLast? = some ':' then w.data.dropLast else w.data
  !core.isEmpty && core.all (fun c => is_alnum_char c || c = '_')

/-- Modelled from the spec: the adapter half of the external front end for the
fragment used here (comments, labels, the origin / end / block-reserve / fill
directives, and the no-operand instructions; other forms are out of this
model's scope and yield `none`). Operand-taking directives consume the
following token; spans record each token's offset range. -/
def classify_tokens : List (Nat × String) → Option (List RawProgramItem)
  | [] => some []
  | (o, w) :: rest =>
    if w.data.head? = some ';' then
      (classify_tokens rest).map
        (fun items => .comment ⟨w, ⟨o, o + w.length⟩⟩ :: items)
    else if upper_str w = ".ORIG" then
      match rest with
      | (o2, w2) :: rest2 =>
        (classify_tokens rest2).map
          (fun items =>
            .directive ⟨.ORIG ⟨w2, ⟨o2, o2 + w2.length⟩⟩, w, ⟨o, o + w.length⟩⟩ :: items)
      | [] => none
    else if upper_str w = ".END" then
      (classify_tokens rest).map
        (fun items => .directive ⟨.END, w, ⟨o, o + w.length⟩⟩ :: items)
    else if upper_str w = ".BLKW" ∨ upper_str w = ".FILL" then
      match rest with
      | (o2, w2) :: rest2 =>
        (classify_tokens rest2).map
          (fun items =>
            .directive
              ⟨if upper_str w = ".BLKW" then .BLKW ⟨w2, ⟨o2, o2 + w2.length⟩⟩
                else .FILL ⟨w2, ⟨o2, o2 + w2.length⟩⟩, w, ⟨o, o + w.length⟩⟩ :: items)
      | [] => none
    else
      match noop_instruction_type (upper_str w) with
      | some it =>
        (classify_tokens rest).map
          (fun items => .instruction ⟨it, w, ⟨o, o + w.length⟩⟩ :: items)
      | none =>
        if is_label_word w then
          (classify_tokens rest).map
            (fun items => .label ⟨w, ⟨o, o + w.length⟩⟩ :: items)
        else none

/-- Modelled from the spec: the external front end, tokenizer then adapter. -/
def parse_model (t : List Char) : Option (List RawProgramItem) :=
  classify_tokens (tok_words t)

/-- The whole formatter pipeline as the `fmt` binary runs it (fmt.rs
`format_file`): parse, apply the `fmt_ast.rs` transform with hybrid inline
comments enabled, then format. -/
def fmt_pipeline (style : FormatStyle) (t : List Char) : Option String :=
  (parse_model t).map (fun raw => format_program style (fmt_transform true t raw))

/-! ## Concrete fixtures shared by the verification results -/

/-- A formatter configuration with every indent and spacing set to zero. -/
def fmt_style_zero : FormatStyle :=
  ⟨0, 0, 0, 0, 0, 0, 0, 0, false⟩

/-- The label written first in the C1 counterexample program. -/
def label_a : Label :=
  ⟨"a", ⟨0, 1⟩⟩

/-- The label written second in the C1 counterexample program. -/
def label_b : Label :=
  ⟨"b", ⟨2, 3⟩⟩

/-- A no-operand instruction used by several concrete programs. -/
def nop_instruction : Instruction :=
  ⟨.Nop, "NOP", ⟨4, 7⟩⟩

/-! ## C1: label flush order -/

/-- C1 counterexample: a raw program with two labels `a`, `b` (in that source
order) before one instruction. The attachment transform flushes the
`pest::Stack` buffer by repeated `pop`, so the instruction's label list is
`[b, a]` — the reverse of source order, not first-seen-first as the claim
states. -/
theorem c1_counterexample :
    hybrid_label_pass [.label label_a, .label label_b, .instruction nop_instruction] =
      [.instruction [label_b, label_a] nop_instruction none] ∧
    [label_b, label_a] ≠ [label_a, label_b] := by
  constructor
  · rfl
  · decide

/-- C1 amended: when the attachment transform flushes the accumulated labels
onto the next instruction or directive item (and, at end of input, into the
single trailing-labels item), the labels appear in reverse source order
(last-seen label first): flushing labels `ls` pushed onto buffer `buffer`
yields `ls.reverse ++ buffer`. -/
theorem c1_amended :
    ∀ (ls buffer : List Label) (rest : List RawProgramItem),
      (∀ i : Instruction,
        hybrid_label_go buffer (ls.map .label ++ .instruction i :: rest) =
          .instruction (ls.reverse ++ buffer) i none :: hybrid_label_go [] rest) ∧
      (∀ d : Directive,
        hybrid_label_go buffer (ls.map .label ++ .directive d :: rest) =
          .directive (ls.reverse ++ buffer) d none :: hybrid_label_go [] rest) ∧
      (hybrid_label_go buffer (ls.map .label) =
        if (ls.reverse ++ buffer).isEmpty then [] else [.eol (ls.reverse ++ buffer)]) := by
  intro ls
  induction ls with
  | nil =>
    intro buffer rest
    refine ⟨fun i => ?_, fun d => ?_, ?_⟩ <;>
      simp [hybrid_label_go, hybrid_label]
  | cons a ls ih =>
    intro buffer rest
    have h1 : ∀ T, hybrid_label_go buffer (.label a :: T) = hybrid_label_go (a :: buffer) T :=
      fun T => rfl
    refine ⟨fun i => ?_, fun d => ?_, ?_⟩
    · rw [List.map_cons, List.cons_append, h1, (ih (a :: buffer) rest).1 i]
      simp
    · rw [List.map_cons, List.cons_append, h1, (ih (a :: buffer) rest).2.1 d]
      simp
    · rw [List.map_cons, h1, (ih (a :: buffer) rest).2.2]
      simp

/-! ## C2: formatter idempotence -/

/-- C2: idempotence fails on the code. With the all-zero configuration,
formatting the two-directive program `.ORIG x3000`/`.END` yields
`.ORIG x3000\n` (the `tuple_windows` comment pass of `fmt_ast.rs` drops the
final item), and formatting that output again yields the empty byte sequence,
not the same bytes. The front end is modelled from the spec (`lc3.pest` is
not under `src/`). -/
theorem c2_format_not_idempotent :
    fmt_pipeline fmt_style_zero (String.data ".ORIG x3000\n.END") =
      some ".ORIG x3000\n" ∧
    fmt_pipeline fmt_style_zero (String.data ".ORIG x3000\n") = some "" ∧
    (".ORIG x3000\n" : String) ≠ "" := by
  refine ⟨by decide, by decide, by decide⟩

/-! ## C4: blank-line spacing rules

The four spacing rules, each written independently following the spec's rule
list (§4.4 step 3); rule (iv) is stated as the code implements it. -/

/-- Spec rule (i): current is a standalone comment and next is code. -/
def spec_rule_comment_stick (st : FormatStyle) (current : ProgramItem)
    (next : Option ProgramItem) : Nat :=
  match current, next with
  | .comment _ _, some (.instruction _ _ _ _) => st.space_comment_stick_to_body
  | .comment _ _, some (.directive _ _ _ _) => st.space_comment_stick_to_body
  | _, _ => 0

/-- Spec rule (ii): current is code (not the origin directive) and next is a
standalone comment. -/
def spec_rule_block_to_comment (st : FormatStyle) (current : ProgramItem)
    (next : Option ProgramItem) : Nat :=
  match current, next with
  | .instruction _ _ _ _, some (.comment _ _) => st.space_block_to_comment
  | .directive _ d _ _, some (.comment _ _) =>
    if d.is_orig then 0 else st.space_block_to_comment
  | _, _ => 0

/-- Spec rule (iii): current is unlabelled code and next is labelled code. -/
def spec_rule_label_block (st : FormatStyle) (current : ProgramItem)
    (next : Option ProgramItem) : Nat :=
  match current, next with
  | .instruction cl _ _ _, some (.instruction nl _ _ _)
  | .instruction cl _ _ _, some (.directive nl _ _ _)
  | .directive cl _ _ _, some (.instruction nl _ _ _)
  | .directive cl _ _ _, some (.directive nl _ _ _) =>
    if cl.isEmpty ∧ ¬ nl.isEmpty then st.space_from_label_block else 0
  | _, _ => 0

/-- Spec rule (iv), amended to what the code does: current is the origin
directive, or current is a non-origin directive and next is the
end-of-program directive. (The claim's version — next is the end directive,
regardless of the kind of the current item — is refuted by
the C4 counterexample.) -/
def spec_rule_start_end_amended (st : FormatStyle) (current : ProgramItem)
    (next : Option ProgramItem) : Nat :=
  match current with
  | .directive _ d _ _ =>
    if d.is_orig then st.space_from_start_end_block
    else
      match next with
      | some (.directive _ d2 _ _) =>
        if d2.is_end then st.space_from_start_end_block else 0
      | _ => 0
  | _ => 0

/-- C4 counterexample: with `space_from_start_end_block = 1`, a current item
that is an instruction followed by the end-of-program directive receives zero
extra blank lines — the start/end rule only fires when the current item is a
directive, not "regardless of whether the current item is an instruction or a
directive" as the claim states. -/
theorem c4_counterexample :
    (FormatStyle.mk 0 0 0 0 0 0 0 1 false).space_from_start_end_block = 1 ∧
    Directive.is_end ⟨.END, ".END", ⟨12, 16⟩⟩ = true ∧
    control_padding (FormatStyle.mk 0 0 0 0 0 0 0 1 false)
      (.instruction [] nop_instruction none ⟨1, 1⟩)
      (some (.directive [] ⟨.END, ".END", ⟨12, 16⟩⟩ none ⟨2, 1⟩)) = 0 := by
  refine ⟨rfl, rfl, by decide⟩

/-- The first accumulation block agrees with spec rule (i). -/
theorem comment_stick_block_eq (st : FormatStyle) (current : ProgramItem)
    (next : Option ProgramItem) :
    control_padding_comment_stick st current next =
      spec_rule_comment_stick st current next := by
  rcases current with ⟨c, lc⟩ | ⟨ls, i, cm, lc⟩ | ⟨ls, d, cm, lc⟩ | ls <;>
    rcases next with _ | (⟨c2, lc2⟩ | ⟨ls2, i2, cm2, lc2⟩ | ⟨ls2, d2, cm2, lc2⟩ | ls2) <;>
    simp [control_padding_comment_stick, spec_rule_comment_stick, next_is_code,
      ProgramItem.is_comment, ProgramItem.is_instruction, ProgramItem.is_directive] <;>
    (try split_ifs) <;> omega

/-- The second accumulation block agrees with spec rule (ii). -/
theorem block_to_comment_block_eq (st : FormatStyle) (current : ProgramItem)
    (next : Option ProgramItem) :
    control_padding_block_to_comment st current next =
      spec_rule_block_to_comment st current next := by
  rcases current with ⟨c, lc⟩ | ⟨ls, i, cm, lc⟩ | ⟨ls, d, cm, lc⟩ | ls <;>
    rcases next with _ | (⟨c2, lc2⟩ | ⟨ls2, i2, cm2, lc2⟩ | ⟨ls2, d2, cm2, lc2⟩ | ls2) <;>
    simp [control_padding_block_to_comment, spec_rule_block_to_comment, next_is_comment,
      ProgramItem.is_comment, ProgramItem.is_instruction, ProgramItem.is_directive] <;>
    (try split_ifs) <;> omega

/-- The third accumulation block agrees with spec rule (iii). -/
theorem label_block_block_eq (st : FormatStyle) (current : ProgramItem)
    (next : Option ProgramItem) :
    control_padding_label_block st current next =
      spec_rule_label_block st current next := by
  rcases current with ⟨c, lc⟩ | ⟨ls, i, cm, lc⟩ | ⟨ls, d, cm, lc⟩ | ls <;>
    rcases next with _ | (⟨c2, lc2⟩ | ⟨ls2, i2, cm2, lc2⟩ | ⟨ls2, d2, cm2, lc2⟩ | ls2) <;>
    simp [control_padding_label_block, spec_rule_label_block] <;>
    (try split_ifs) <;> omega

/-- The fourth accumulation block agrees with the amended rule (iv). -/
theorem start_end_block_eq (st : FormatStyle) (current : ProgramItem)
    (next : Option ProgramItem) :
    control_padding_start_end st current next =
      spec_rule_start_end_amended st current next := by
  rcases current with ⟨c, lc⟩ | ⟨ls, i, cm, lc⟩ | ⟨ls, d, cm, lc⟩ | ls <;>
    rcases next with _ | (⟨c2, lc2⟩ | ⟨ls2, i2, cm2, lc2⟩ | ⟨ls2, d2, cm2, lc2⟩ | ls2) <;>
    simp [control_padding_start_end, spec_rule_start_end_amended] <;>
    (try split_ifs) <;> omega

/-- C4 amended: the number of blank lines after the current item is the sum of
the four independently triggered spacing rules — with rule (iv) firing only
when the current item is a directive (the origin directive unconditionally, a
non-origin directive when next is the end directive) — plus exactly one line
separator for the item itself. -/
theorem c4_amended (st : FormatStyle) (current : ProgramItem)
    (next : Option ProgramItem) :
    control_padding st current next =
      spec_rule_comment_stick st current next +
        spec_rule_block_to_comment st current next +
        spec_rule_label_block st current next +
        spec_rule_start_end_amended st current next ∧
    line_padding st current next = control_padding st current next + 1 := by
  refine ⟨?_, rfl⟩
  rw [control_padding, comment_stick_block_eq, block_to_comment_block_eq,
    label_block_block_eq, start_end_block_eq]

/-! ## C3: the fmt_ast windows pass never emits the last item -/

/-- Erase the trailing-comment slot of an item; the comment pass can only
change this slot, so up to this erasure every emitted item is the first
component of its window. -/
def strip_trailing_comment : ProgramItem → ProgramItem
  | .instruction ls i _ lc => .instruction ls i none lc
  | .directive ls d _ lc => .directive ls d none lc
  | x => x

/-- Whatever `hybrid_comment` emits for a window is its first component up to
the trailing-comment slot. -/
theorem hybrid_comment_strip (fwd : Bool) (x : ProgramItem)
    (next : Option ProgramItem) :
    ∀ y ∈ (hybrid_comment fwd x next).2,
      strip_trailing_comment y = strip_trailing_comment x := by
  rcases x with ⟨c, lc⟩ | ⟨ls, i, cm, lc⟩ | ⟨ls, d, cm, lc⟩ | ls <;>
    rcases next with _ | (⟨c2, lc2⟩ | ⟨ls2, i2, cm2, lc2⟩ | ⟨ls2, d2, cm2, lc2⟩ | ls2) <;>
    simp [hybrid_comment, strip_trailing_comment] <;>
    split_ifs <;>
    simp [strip_trailing_comment]

/-- C3: in the `fmt_ast.rs` transform used by the formatter binary, the
hybrid-comment stage maps over sliding two-item windows and emits a result
only for the first element of each window. Consequently a one-item sequence
produces the empty program, and (up to the trailing-comment slot, the only
field the pass may rewrite) the emitted items form a sublist of the input
without its last item — the last item is never emitted. -/
theorem c3_windows_drop_last :
    (∀ (fwd : Bool) (x : ProgramItem), fmt_hybrid_windows fwd [x] = []) ∧
    (∀ (l : List ProgramItem) (fwd : Bool),
      ((fmt_hybrid_windows fwd l).map strip_trailing_comment).Sublist
        (l.dropLast.map strip_trailing_comment)) := by
  refine ⟨fun fwd x => rfl, fun l => ?_⟩
  induction l with
  | nil => intro fwd; simp [fmt_hybrid_windows]
  | cons x tail ih =>
    intro fwd
    match tail with
    | [] => simp [fmt_hybrid_windows]
    | y :: rest =>
      have hdrop : (x :: y :: rest).dropLast = x :: (y :: rest).dropLast := rfl
      have hunf : fmt_hybrid_windows fwd (x :: y :: rest) =
          match hybrid_comment fwd x (some y) with
          | (fwd', none) => fmt_hybrid_windows fwd' (y :: rest)
          | (fwd', some item) => item :: fmt_hybrid_windows fwd' (y :: rest) := rfl
      rcases hstep : hybrid_comment fwd x (some y) with ⟨fwd', r⟩
      rcases r with _ | it
      · rw [hdrop, hunf, hstep, List.map_cons]
        exact (ih fwd').cons _
      · have hy : strip_trailing_comment it = strip_trailing_comment x :=
          hybrid_comment_strip fwd x (some y) it (by rw [hstep]; rfl)
        rw [hdrop, hunf, hstep, List.map_cons, List.map_cons, hy]
        exact (ih fwd').cons₂ _

/-! ## C5: comment attachment determinism (processed_ast.rs pass) -/

/-- Definition following the spec's words (§4.3 comment attachment, reframed
per the design note as a stateless two-item sliding window): an instruction or
directive immediately followed by a comment resolved to the same line adopts
that comment and the comment item is consumed; every other item — in
particular every comment on a different line than the preceding statement —
is kept standalone and unchanged. Refinement target for the stateful
`ast_hybrid_pass`. -/
def spec_comment_rewrite : List ProgramItem → List ProgramItem
  | [] => []
  | .instruction ls i cm lc :: .comment c clc :: rest =>
    if clc.at_the_same_line lc then
      .instruction ls i (some c) lc :: spec_comment_rewrite rest
    else .instruction ls i cm lc :: spec_comment_rewrite (.comment c clc :: rest)
  | .directive ls d cm lc :: .comment c clc :: rest =>
    if clc.at_the_same_line lc then
      .directive ls d (some c) lc :: spec_comment_rewrite rest
    else .directive ls d cm lc :: spec_comment_rewrite (.comment c clc :: rest)
  | x :: rest => x :: spec_comment_rewrite rest

/-- The stateful pass with the flag initially set agrees with the stateless
two-window rewrite on every item list (induction on a length bound). -/
theorem ast_hybrid_pass_eq_spec_aux :
    ∀ (n : Nat) (l : List ProgramItem), l.length ≤ n →
      ast_hybrid_pass true l = spec_comment_rewrite l := by
  intro n
  induction n with
  | zero =>
    intro l hl
    rw [List.eq_nil_of_length_eq_zero (Nat.le_zero.mp hl)]
    rfl
  | succ n ih =>
    intro l hl
    match l with
    | [] => rfl
    | .comment c clc :: rest =>
      have h1 : ast_hybrid_pass true (.comment c clc :: rest) =
          .comment c clc :: ast_hybrid_pass true rest := rfl
      rw [h1, ih rest (by simp at hl; omega)]
      simp [spec_comment_rewrite]
    | .eol ls :: rest =>
      have h1 : ast_hybrid_pass true (.eol ls :: rest) =
          .eol ls :: ast_hybrid_pass true rest := rfl
      rw [h1, ih rest (by simp at hl; omega)]
      simp [spec_comment_rewrite]
    | .instruction ls i cm lc :: rest =>
      match rest with
      | [] => rfl
      | .comment c clc :: rest2 =>
        by_cases h : clc.at_the_same_line lc
        · have h1 : ast_hybrid_pass true (.instruction ls i cm lc :: .comment c clc :: rest2) =
              .instruction ls i (some c) lc :: ast_hybrid_pass false (.comment c clc :: rest2) := by
            simp [ast_hybrid_pass, hybrid_comment, h]
          have h2 : ast_hybrid_pass false (.comment c clc :: rest2) =
              ast_hybrid_pass true rest2 := rfl
          rw [h1, h2, ih rest2 (by simp at hl; omega)]
          simp [spec_comment_rewrite, h]
        · have h1 : ast_hybrid_pass true (.instruction ls i cm lc :: .comment c clc :: rest2) =
              .instruction ls i cm lc :: ast_hybrid_pass true (.comment c clc :: rest2) := by
            simp [ast_hybrid_pass, hybrid_comment, h]
          rw [h1, ih (.comment c clc :: rest2) (by simp at hl; simp; omega)]
          simp [spec_comment_rewrite, h]
      | .instruction ls2 i2 cm2 lc2 :: rest2 =>
        have h1 : ast_hybrid_pass true
              (.instruction ls i cm lc :: .instruction ls2 i2 cm2 lc2 :: rest2) =
            .instruction ls i cm lc ::
              ast_hybrid_pass true (.instruction ls2 i2 cm2 lc2 :: rest2) := rfl
        rw [h1, ih (.instruction ls2 i2 cm2 lc2 :: rest2) (by simp at hl; simp; omega)]
        simp [spec_comment_rewrite]
      | .directive ls2 d2 cm2 lc2 :: rest2 =>
        have h1 : ast_hybrid_pass true
              (.instruction ls i cm lc :: .directive ls2 d2 cm2 lc2 :: rest2) =
            .instruction ls i cm lc ::
              ast_hybrid_pass true (.directive ls2 d2 cm2 lc2 :: rest2) := rfl
        rw [h1, ih (.directive ls2 d2 cm2 lc2 :: rest2) (by simp at hl; simp; omega)]
        simp [spec_comment_rewrite]
      | .eol ls2 :: rest2 =>
        have h1 : ast_hybrid_pass true (.instruction ls i cm lc :: .eol ls2 :: rest2) =
            .instruction ls i cm lc :: ast_hybrid_pass true (.eol ls2 :: rest2) := rfl
        rw [h1, ih (.eol ls2 :: rest2) (by simp at hl; simp; omega)]
        simp [spec_comment_rewrite]
    | .directive ls d cm lc :: rest =>
      match rest with
      | [] => rfl
      | .comment c clc :: rest2 =>
        by_cases h : clc.at_the_same_line lc
        · have h1 : ast_hybrid_pass true (.directive ls d cm lc :: .comment c clc :: rest2) =
              .directive ls d (some c) lc :: ast_hybrid_pass false (.comment c clc :: rest2) := by
            simp [ast_hybrid_pass, hybrid_comment, h]
          have h2 : ast_hybrid_pass false (.comment c clc :: rest2) =
              ast_hybrid_pass true rest2 := rfl
          rw [h1, h2, ih rest2 (by simp at hl; omega)]
          simp [spec_comment_rewrite, h]
        · have h1 : ast_hybrid_pass true (.directive ls d cm lc :: .comment c clc :: rest2) =
              .directive ls d cm lc :: ast_hybrid_pass true (.comment c clc :: rest2) := by
            simp [ast_hybrid_pass, hybrid_comment, h]
          rw [h1, ih (.comment c clc :: rest2) (by simp at hl; simp; omega)]
          simp [spec_comment_rewrite, h]
      | .instruction ls2 i2 cm2 lc2 :: rest2 =>
        have h1 : ast_hybrid_pass true
              (.directive ls d cm lc :: .instruction ls2 i2 cm2 lc2 :: rest2) =
            .directive ls d cm lc ::
              ast_hybrid_pass true (.instruction ls2 i2 cm2 lc2 :: rest2) := rfl
        rw [h1, ih (.instruction ls2 i2 cm2 lc2 :: rest2) (by simp at hl; simp; omega)]
        simp [spec_comment_rewrite]
      | .directive ls2 d2 cm2 lc2 :: rest2 =>
        have h1 : ast_hybrid_pass true
              (.directive ls d cm lc :: .directive ls2 d2 cm2 lc2 :: rest2) =
            .directive ls d cm lc ::
              ast_hybrid_pass true (.directive ls2 d2 cm2 lc2 :: rest2) := rfl
        rw [h1, ih (.directive ls2 d2 cm2 lc2 :: rest2) (by simp at hl; simp; omega)]
        simp [spec_comment_rewrite]
      | .eol ls2 :: rest2 =>
        have h1 : ast_hybrid_pass true (.directive ls d cm lc :: .eol ls2 :: rest2) =
            .directive ls d cm lc :: ast_hybrid_pass true (.eol ls2 :: rest2) := rfl
        rw [h1, ih (.eol ls2 :: rest2) (by simp at hl; simp; omega)]
        simp [spec_comment_rewrite]

/-- C5: with comment merging enabled, the `processed_ast.rs` pass equals the
stateless rewrite of the spec on every annotated item list, and hence on every
transformed program: a statement immediately followed by a same-line comment
carries it as its trailing comment with no standalone item emitted for it, and
every other comment is emitted standalone, unchanged, attached to nothing. -/
theorem c5_comment_attachment :
    (∀ l : List ProgramItem, ast_hybrid_pass true l = spec_comment_rewrite l) ∧
    (∀ (t : List Char) (raw : List RawProgramItem),
      ast_transform true t raw =
        spec_comment_rewrite ((hybrid_label_pass raw).map (add_line_info t))) := by
  have base : ∀ l : List ProgramItem, ast_hybrid_pass true l = spec_comment_rewrite l :=
    fun l => ast_hybrid_pass_eq_spec_aux l.length l le_rfl
  exact ⟨base, fun t raw => base _⟩

/-! ## C8: keyword case-style checking -/

/-- C8: the outcome of `check_keyword_style` for every keyword and required
style — a keyword classified as the required style passes; a single lowercase
word with no separator (classified snake_case) also passes against required
lowerCamelCase; any other classification is a wrong-style error carrying both
the required and the found style; an unclassifiable keyword is an
unknown-style error carrying no found style. -/
theorem c8_keyword_style (kw : String) (req : CaseStyle) :
    (get_identifier_style kw = some req → check_keyword_style kw req = .ok) ∧
    (get_identifier_style kw = some .SnakeCase → kw.data.contains '_' = false →
      check_keyword_style kw .LowerCamelCase = .ok) ∧
    (∀ f, get_identifier_style kw = some f → f ≠ req →
      ¬ (f = .SnakeCase ∧ kw.data.contains '_' = false ∧ req = .LowerCamelCase) →
      check_keyword_style kw req = .wrongStyle f ∧
      keyword_case_error kw req = some (req, some f)) ∧
    (get_identifier_style kw = none →
      check_keyword_style kw req = .unknownStyle ∧
      keyword_case_error kw req = some (req, none)) := by
  refine ⟨fun h => ?_, fun h h2 => ?_, fun f h hne hexc => ?_, fun h => ?_⟩
  · simp [check_keyword_style, h]
  · have h2' : '_' ∉ kw.data := by simpa using h2
    simp [check_keyword_style, h, h2, h2']
  · have hc : check_keyword_style kw req = .wrongStyle f := by
      simp only [check_keyword_style, h]
      rw [if_neg hne, if_neg hexc]
    exact ⟨hc, by simp [keyword_case_error, hc]⟩
  · have hc : check_keyword_style kw req = .unknownStyle := by
      simp [check_keyword_style, h]
    exact ⟨hc, by simp [keyword_case_error, hc]⟩

/-- Concrete instances of the C8 theorem: a lowerCamelCase keyword against
lowerCamelCase, a single-word snake_case keyword against lowerCamelCase, an
UpperCamelCase keyword against snake_case, and an unclassifiable keyword. -/
theorem c8_keyword_style_witness :
    check_keyword_style "fooBar" .LowerCamelCase = .ok ∧
    check_keyword_style "foo" .LowerCamelCase = .ok ∧
    check_keyword_style "FooBar" .SnakeCase = .wrongStyle .UpperCamelCase ∧
    keyword_case_error "a0" .SnakeCase = some (.SnakeCase, none) :=
  ⟨(c8_keyword_style "fooBar" .LowerCamelCase).1 (by decide),
   (c8_keyword_style "foo" .LowerCamelCase).2.1 (by decide) (by decide),
   ((c8_keyword_style "FooBar" .SnakeCase).2.2.1 .UpperCamelCase (by decide)
     (by decide) (by decide)).1,
   ((c8_keyword_style "a0" .SnakeCase).2.2.2 (by decide)).2⟩

/-! ## C6 and C9: global comment alignment and unconditional padding -/

/-- Every member of a list of naturals is bounded by the `foldr max 0` the
formatter computes for the comment column. -/
theorem mem_le_foldr_max (n : Nat) (l : List Nat) (h : n ∈ l) :
    n ≤ l.foldr max 0 := by
  induction l with
  | nil => cases h
  | cons a tl ih =>
    rcases List.mem_cons.mp h with rfl | h'
    · exact Nat.le_max_left _ _
    · exact le_trans (ih h') (Nat.le_max_right _ _)

/-- The rendered body of any item of the program is no wider than the global
comment column. -/
theorem body_le_comment_column (st : FormatStyle) (items : List ProgramItem)
    (it : ProgramItem) (hmem : it ∈ items) :
    (body_of st it).length ≤ comment_column st items := by
  have h1 : (body_of st it).length ∈ items.map (fun x => (body_of st x).length) :=
    List.mem_map_of_mem _ hmem
  have h2 := mem_le_foldr_max _ _ h1
  unfold comment_column
  omega

/-- C6: every trailing comment starts at the same column for the whole file —
the visible line of an item carrying a trailing comment is its body, padding
spaces, then the comment, and the body-plus-padding width is exactly
(maximum body width over all items) + `indent_min_comment_from_block`. -/
theorem c6_global_alignment (st : FormatStyle) (items : List ProgramItem)
    (it : ProgramItem) (c : String) (hmem : it ∈ items)
    (hcm : (formatted_display st it).2.2 = some c) :
    main_line st items it =
      body_of st it ++ spaces (comment_column st items - (body_of st it).length) ++ c ∧
    (body_of st it ++
        spaces (comment_column st items - (body_of st it).length)).length =
      comment_column st items := by
  constructor
  · simp [main_line, hcm, body_of]
  · have hle := body_le_comment_column st items it hmem
    have hsp : (spaces (comment_column st items - (body_of st it).length)).length =
        comment_column st items - (body_of st it).length := by
      show (List.replicate _ ' ').length = _
      exact List.length_replicate _ _
    rw [String.length_append, hsp]
    omega

/-- An instruction item carrying a trailing comment, on a program of its own. -/
def nop_with_comment : ProgramItem :=
  .instruction [] nop_instruction (some ⟨"; hi", ⟨8, 12⟩⟩) ⟨1, 1⟩

/-- Concrete instance of the C6 theorem on a one-item program. -/
theorem c6_global_alignment_witness :
    (body_of fmt_style_zero nop_with_comment ++
        spaces (comment_column fmt_style_zero [nop_with_comment] -
          (body_of fmt_style_zero nop_with_comment).length)).length =
      comment_column fmt_style_zero [nop_with_comment] :=
  (c6_global_alignment fmt_style_zero [nop_with_comment] nop_with_comment ";hi"
    (by simp) (by decide)).2

/-- A wide comment-free instruction item making every other body non-widest. -/
def long_item : ProgramItem :=
  .instruction [] ⟨.Nop, "LONGMNEM", ⟨0, 8⟩⟩ none ⟨1, 1⟩

/-- A narrow comment-free instruction item. -/
def plain_nop_item : ProgramItem :=
  .instruction [] nop_instruction none ⟨2, 1⟩

/-- C9 counterexample: the claim asserts every emitted body line except the
single widest carries trailing whitespace, but a non-widest line that carries
a trailing comment ends with the comment text, not whitespace: in the
two-item program below the narrow item's visible line ends in `i`. -/
theorem c9_counterexample :
    (body_of fmt_style_zero nop_with_comment).length <
      comment_column fmt_style_zero [long_item, nop_with_comment] ∧
    (main_line fmt_style_zero [long_item, nop_with_comment]
        nop_with_comment).data.getLast? = some 'i' ∧
    some 'i' ≠ some ' ' := by
  refine ⟨by decide, by decide, by decide⟩

/-- C9 amended: the formatter appends the padding up to the global comment
column unconditionally — for an item with no trailing comment the visible
line is the body followed by the padding alone (standalone comments and
trailing-label items with empty bodies included, since their rendered
trailing-comment slot is `none`) — and therefore every such line whose body
is narrower than the comment column ends in a space character. -/
theorem c9_amended (st : FormatStyle) (items : List ProgramItem)
    (it : ProgramItem) (hmem : it ∈ items)
    (hcm : (formatted_display st it).2.2 = none)
    (hlt : (body_of st it).length < comment_column st items) :
    main_line st items it =
      body_of st it ++ spaces (comment_column st items - (body_of st it).length) ∧
    (main_line st items it).data.getLast? = some ' ' := by
  have h1 : main_line st items it =
      body_of st it ++ spaces (comment_column st items - (body_of st it).length) := by
    simp [main_line, hcm, body_of]
  refine ⟨h1, ?_⟩
  rw [h1]
  rcases hn : comment_column st items - (body_of st it).length with _ | m
  · omega
  · have hdata : (body_of st it ++ spaces (m + 1)).data =
        ((body_of st it).data ++ List.replicate m ' ') ++ [' '] := by
      simp [spaces, List.replicate_succ']
    rw [hdata, List.getLast?_concat]

/-- Concrete instance of the C9 amended theorem: the narrow comment-free item
of a two-item program renders with its line ending in a space. -/
theorem c9_amended_witness :
    (main_line fmt_style_zero [long_item, plain_nop_item]
        plain_nop_item).data.getLast? = some ' ' :=
  (c9_amended fmt_style_zero [long_item, plain_nop_item] plain_nop_item
    (by simp) (by decide) (by decide)).2

/-! ## C10: comment normalization -/

/-- The first element surviving `dropWhile p` fails `p`. -/
theorem head_dropWhile_not (p : Char → Bool) (z : List Char) :
    ∀ a, (z.dropWhile p).head? = some a → p a = false := by
  induction z with
  | nil => intro a h; cases h
  | cons c rest ih =>
    intro a h
    by_cases hc : p c
    · exact ih a (by rwa [List.dropWhile_cons_of_pos hc] at h)
    · rw [List.dropWhile_cons_of_neg hc] at h
      cases h
      exact Bool.of_not_eq_true hc

/-- A non-empty `dropWhile` keeps the last element of the list. -/
theorem getLast_dropWhile (p : Char → Bool) (z : List Char)
    (hne : z.dropWhile p ≠ []) : (z.dropWhile p).getLast? = z.getLast? := by
  obtain ⟨pre, hpre⟩ : (z.dropWhile p).IsSuffix z := List.dropWhile_suffix p
  conv_rhs => rw [← hpre]
  exact (List.getLast?_append_of_ne_nil _ hne).symm

/-- The first character of a trimmed list is not whitespace. -/
theorem trim_chars_head_not_ws (l : List Char) :
    ∀ a, (trim_chars l).head? = some a → is_ws_char a = false := by
  intro a h
  unfold trim_chars at h
  rw [List.head?_reverse] at h
  have hne : (l.dropWhile is_ws_char).reverse.dropWhile is_ws_char ≠ [] := by
    intro hnil
    rw [hnil] at h
    cases h
  rw [getLast_dropWhile _ _ hne, List.getLast?_reverse] at h
  exact head_dropWhile_not _ _ a h

/-- The last character of a trimmed list is not whitespace. -/
theorem trim_chars_getLast_not_ws (l : List Char) :
    ∀ a, (trim_chars l).getLast? = some a → is_ws_char a = false := by
  intro a h
  unfold trim_chars at h
  rw [List.getLast?_reverse] at h
  exact head_dropWhile_not _ _ a h

/-- C10: `print_comment` reaches its `unreachable!()` branch exactly when the
stored text does not begin with `;`; otherwise the output is the marker `;`
followed immediately by the stored text after the marker with its leading and
trailing whitespace removed — comments are normalized, not reproduced
verbatim. -/
theorem c10_print_comment (c : Comment) :
    (print_comment c = none ↔ c.content.data.head? ≠ some ';') ∧
    (∀ s, print_comment c = some s →
      s.data = ';' :: trim_chars c.content.data.tail ∧
      (∀ a, (trim_chars c.content.data.tail).head? = some a → is_ws_char a = false) ∧
      (∀ a, (trim_chars c.content.data.tail).getLast? = some a →
        is_ws_char a = false)) := by
  constructor
  · rcases hd : c.content.data with _ | ⟨c0, rest⟩
    · simp [print_comment, hd]
    · by_cases h0 : c0 = ';'
      · subst h0
        simp [print_comment, hd]
      · simp [print_comment, hd, h0]
  · intro s hs
    rcases hd : c.content.data with _ | ⟨c0, rest⟩
    · rw [print_comment, hd] at hs
      cases hs
    · rw [print_comment, hd] at hs
      split at hs
      · rename_i r heq
        injection heq with hc0 hrest
        subst hc0
        subst hrest
        injection hs with hss
        subst hss
        refine ⟨by simp, trim_chars_head_not_ws _, trim_chars_getLast_not_ws _⟩
      · cases hs

/-- Concrete instance of the C10 theorem: the stored text `"; hi "` prints as
`";hi"`, whose text after the marker is trimmed on both ends. -/
theorem c10_print_comment_witness :
    (";hi" : String).data = ';' :: trim_chars (String.data "; hi ").tail ∧
    (∀ a, (trim_chars (String.data "; hi ").tail).head? = some a →
      is_ws_char a = false) ∧
    (∀ a, (trim_chars (String.data "; hi ").tail).getLast? = some a →
      is_ws_char a = false) :=
  (c10_print_comment ⟨"; hi ", ⟨0, 6⟩⟩).2 ";hi" (by decide)

/-! ## C7: position lookup

Infrastructure relating `lines_split` to the flat text. -/

/-- Concatenate pieces back with newline separators; `lines_split` is a
section of this junction. -/
def joinNl : List (List Char) → List Char
  | [] => []
  | [p] => p
  | p :: ps => p ++ '\n' :: joinNl ps

/-- The start offset of the `j`-th piece: every earlier piece contributes its
length plus one separator. -/
def start_sum : List (List Char) → Nat → Nat
  | _, 0 => 0
  | [], _ + 1 => 0
  | p :: ps, j + 1 => p.length + 1 + start_sum ps j

theorem joinNl_cons_of_ne_nil (p : List Char) (ps : List (List Char))
    (h : ps ≠ []) : joinNl (p :: ps) = p ++ '\n' :: joinNl ps := by
  cases ps with
  | nil => exact absurd rfl h
  | cons q qs => rfl

theorem lines_split_ne_nil (t : List Char) : lines_split t ≠ [] := by
  induction t with
  | nil => simp [lines_split]
  | cons c r ih =>
    simp only [lines_split]
    split
    · simp
    · rcases h : lines_split r with _ | ⟨p, ps⟩ <;> simp

theorem joinNl_lines_split (t : List Char) : joinNl (lines_split t) = t := by
  induction t with
  | nil => rfl
  | cons c r ih =>
    simp only [lines_split]
    by_cases hc : c = '\n'
    · rw [if_pos hc, joinNl_cons_of_ne_nil _ _ (lines_split_ne_nil r), ih, hc]
      rfl
    · rw [if_neg hc]
      rcases hls : lines_split r with _ | ⟨p, ps⟩
      · exact absurd hls (lines_split_ne_nil r)
      · rw [hls] at ih
        cases ps with
        | nil =>
          show c :: p = c :: r
          rw [show p = joinNl [p] from rfl, ih]
        | cons q qs =>
          show (c :: p) ++ '\n' :: joinNl (q :: qs) = c :: r
          rw [List.cons_append, ← joinNl_cons_of_ne_nil p (q :: qs) (by simp), ih]

theorem newline_not_mem_lines_split (t : List Char) :
    ∀ p ∈ lines_split t, '\n' ∉ p := by
  induction t with
  | nil =>
    intro p hp
    simp [lines_split] at hp
    simp [hp]
  | cons c r ih =>
    intro p hp
    simp only [lines_split] at hp
    by_cases hc : c = '\n'
    · rw [if_pos hc] at hp
      rcases List.mem_cons.mp hp with rfl | hp'
      · simp
      · exact ih p hp'
    · rw [if_neg hc] at hp
      rcases hls : lines_split r with _ | ⟨q, qs⟩
      · exact absurd hls (lines_split_ne_nil r)
      · rw [hls] at hp
        rcases List.mem_cons.mp hp with rfl | hp'
        · intro hmem
          rcases List.mem_cons.mp hmem with h1 | h2
          · exact hc h1.symm
          · exact ih q (hls ▸ List.mem_cons_self q qs) h2
        · exact ih p (hls ▸ List.mem_cons.mpr (Or.inr hp'))

theorem mem_of_mem_lines_split (t : List Char) :
    ∀ p ∈ lines_split t, ∀ c ∈ p, c ∈ t := by
  induction t with
  | nil =>
    intro p hp c hc
    simp [lines_split] at hp
    subst hp
    cases hc
  | cons a r ih =>
    intro p hp c hc
    simp only [lines_split] at hp
    by_cases ha : a = '\n'
    · rw [if_pos ha] at hp
      rcases List.mem_cons.mp hp with rfl | hp'
      · cases hc
      · exact List.mem_cons.mpr (Or.inr (ih p hp' c hc))
    · rw [if_neg ha] at hp
      rcases hls : lines_split r with _ | ⟨q, qs⟩
      · exact absurd hls (lines_split_ne_nil r)
      · rw [hls] at hp
        rcases List.mem_cons.mp hp with rfl | hp'
        · rcases List.mem_cons.mp hc with rfl | hc'
          · exact List.mem_cons_self _ _
          · exact List.mem_cons.mpr
              (Or.inr (ih q (hls ▸ List.mem_cons_self q qs) c hc'))
        · exact List.mem_cons.mpr
            (Or.inr (ih p (hls ▸ List.mem_cons.mpr (Or.inr hp')) c hc))

/-- A predicate-failing element interrupts a `takeWhile` over an append. -/
theorem takeWhile_append_cons (p : Char → Bool) (x : Char) (hx : p x = false) :
    ∀ (a b : List Char), (a ++ x :: b).takeWhile p = a.takeWhile p := by
  intro a b
  induction a with
  | nil => simp [List.takeWhile, hx]
  | cons h0 tl ih =>
    by_cases hh : p h0
    · simp [List.takeWhile_cons, hh, ih]
    · simp [List.takeWhile_cons, hh]

/-- Bridge: a non-newline content position of the joined text falls inside a
unique piece, and the ground-truth line count and line start at that position
are the piece index and the piece's start offset. -/
theorem join_content_pos :
    ∀ ps : List (List Char), ps ≠ [] → (∀ p ∈ ps, '\n' ∉ p) →
      ∀ (o : Nat) (c : Char), (joinNl ps).get? o = some c → c ≠ '\n' →
        ∃ j p, ps.get? j = some p ∧ start_sum ps j ≤ o ∧
          o - start_sum ps j < p.length ∧
          ((joinNl ps).take o).count '\n' = j ∧
          line_start_of (joinNl ps) o = start_sum ps j := by
  intro ps
  induction ps with
  | nil => intro h; exact absurd rfl h
  | cons p ps ih =>
    intro _ hnn o c hget hc
    cases ps with
    | nil =>
      have hjoin : joinNl [p] = p := rfl
      rw [hjoin] at hget ⊢
      have ho : o < p.length := List.get?_eq_some.mp hget |>.1
      refine ⟨0, p, rfl, Nat.zero_le o, by simpa using ho, ?_, ?_⟩
      · have : '\n' ∉ p.take o := fun hm =>
          hnn p (List.mem_cons_self p []) (List.take_subset o p hm)
        simpa [List.count_eq_zero]
      · unfold line_start_of
        have hall : ∀ a ∈ (p.take o).reverse, (fun ch => decide (ch ≠ '\n')) a = true := by
          intro a ha
          simp only [decide_eq_true_eq]
          intro rfl2
          exact hnn p (List.mem_cons_self p []) (List.take_subset o p
            (List.mem_reverse.mp (rfl2 ▸ ha)))
        rw [List.takeWhile_eq_self_iff.mpr hall]
        simp [List.length_take, Nat.min_eq_left (Nat.le_of_lt ho), start_sum]
    | cons q qs =>
      have hjoin : joinNl (p :: q :: qs) = p ++ '\n' :: joinNl (q :: qs) :=
        joinNl_cons_of_ne_nil p (q :: qs) (by simp)
      rw [hjoin] at hget ⊢
      rcases Nat.lt_trichotomy o p.length with ho | ho | ho
      · -- inside the first piece
        have hget' : p.get? o = some c := by
          rwa [List.get?_append ho] at hget
        refine ⟨0, p, rfl, Nat.zero_le o, by simpa using ho, ?_, ?_⟩
        · rw [List.take_append_of_le_length (Nat.le_of_lt ho)]
          have : '\n' ∉ p.take o := fun hm =>
            hnn p (List.mem_cons_self _ _) (List.take_subset o p hm)
          simpa [List.count_eq_zero]
        · unfold line_start_of
          rw [List.take_append_of_le_length (Nat.le_of_lt ho)]
          have hall : ∀ a ∈ (p.take o).reverse, (fun ch => decide (ch ≠ '\n')) a = true := by
            intro a ha
            simp only [decide_eq_true_eq]
            intro rfl2
            exact hnn p (List.mem_cons_self _ _) (List.take_subset o p
              (List.mem_reverse.mp (rfl2 ▸ ha)))
          rw [List.takeWhile_eq_self_iff.mpr hall]
          simp [List.length_take, Nat.min_eq_left (Nat.le_of_lt ho), start_sum]
      · -- exactly at the separator: contradiction
        exfalso
        apply hc
        rw [List.get?_append_right (Nat.le_of_eq ho.symm)] at hget
        rw [ho] at hget
        simp at hget
        exact hget.symm
      · -- inside a later piece
        obtain ⟨o', ho2⟩ : ∃ o', o = p.length + (1 + o') :=
          ⟨o - p.length - 1, by omega⟩
        have hget' : (joinNl (q :: qs)).get? o' = some c := by
          rw [List.get?_append_right (Nat.le_of_lt ho)] at hget
          rw [show o - p.length = o' + 1 by omega] at hget
          simpa using hget
        obtain ⟨j, pc, hj, hle, hlt, hcount, hstart⟩ :=
          ih (by simp) (fun x hx => hnn x (List.mem_cons.mpr (Or.inr hx))) o' c hget' hc
        have htake : (p ++ '\n' :: joinNl (q :: qs)).take o =
            p ++ '\n' :: (joinNl (q :: qs)).take o' := by
          rw [ho2, List.take_append]
          rw [show 1 + o' = o' + 1 by omega, List.take_succ_cons]
        have hnp : '\n' ∉ p := hnn p (List.mem_cons_self _ _)
        refine ⟨j + 1, pc, by simpa using hj, ?_, ?_, ?_, ?_⟩
        · show p.length + 1 + start_sum (q :: qs) j ≤ o
          omega
        · show o - (p.length + 1 + start_sum (q :: qs) j) < pc.length
          omega
        · rw [htake, List.count_append]
          simp only [List.count_cons_self]
          rw [List.count_eq_zero.mpr hnp, hcount]
          show 0 + (j + 1) = j + 1
          omega
        · show line_start_of (p ++ '\n' :: joinNl (q :: qs)) o =
            p.length + 1 + start_sum (q :: qs) j
          unfold line_start_of at hstart ⊢
          rw [htake]
          have hrev : (p ++ '\n' :: (joinNl (q :: qs)).take o').reverse =
              ((joinNl (q :: qs)).take o').reverse ++ '\n' :: p.reverse := by
            simp
          rw [hrev, takeWhile_append_cons _ '\n' (by simp)]
          have hL : (((joinNl (q :: qs)).take o').reverse.takeWhile
              (fun ch => decide (ch ≠ '\n'))).length ≤ o' := by
            have h1 : (((joinNl (q :: qs)).take o').reverse.takeWhile
                (fun ch => decide (ch ≠ '\n'))).length ≤
                ((joinNl (q :: qs)).take o').reverse.length :=
              (List.takeWhile_sublist _).length_le
            have h2 : ((joinNl (q :: qs)).take o').reverse.length ≤ o' := by
              simp [List.length_take]
            omega
          omega

/-- `start_sum` only inspects the first `j` pieces. -/
theorem start_sum_append (a b : List (List Char)) :
    ∀ j, j < a.length → start_sum (a ++ b) j = start_sum a j := by
  induction a with
  | nil => intro j hj; exact absurd hj (by simp)
  | cons p a' ih =>
    intro j hj
    cases j with
    | zero => rfl
    | succ k =>
      show p.length + 1 + start_sum (a' ++ b) k = p.length + 1 + start_sum a' k
      rw [ih k (by simpa using Nat.lt_of_succ_lt_succ hj)]

/-- The table scan finds the entry of the piece containing the offset and
returns its line number and exact column. -/
theorem lookup_go_finds :
    ∀ (suffix lines : List (List Char)) (cc ln j : Nat) (p : List Char) (o : Nat),
      lines.drop (ln - 1) = suffix → 1 ≤ ln → suffix.get? j = some p →
      cc + start_sum suffix j ≤ o → o - (cc + start_sum suffix j) < p.length →
      get_line_and_column_go lines (build_line_starts cc ln suffix) o =
        some ⟨ln + j, o - (cc + start_sum suffix j) + 1⟩ := by
  intro suffix
  induction suffix with
  | nil =>
    intro lines cc ln j p o hdrop hln hj hle hlt
    cases hj
  | cons q rest ih =>
    intro lines cc ln j p o hdrop hln hj hle hlt
    have hlq : lines.get? (ln - 1) = some q := by
      have h0 := List.get?_drop lines (ln - 1) 0
      rw [hdrop] at h0
      simpa using h0.symm
    have hgo : get_line_and_column_go lines (build_line_starts cc ln (q :: rest)) o =
        if cc ≤ o ∧ o < cc + q.length then some ⟨ln, o - cc + 1⟩
        else get_line_and_column_go lines
          (build_line_starts (cc + q.length + 1) (ln + 1) rest) o := by
      simp only [build_line_starts, get_line_and_column_go, hlq, Option.getD_some]
    cases j with
    | zero =>
      have hp : p = q := by
        have : some q = some p := hj
        injection this with h
        exact h.symm
      subst hp
      simp only [start_sum, Nat.add_zero] at hle hlt
      rw [hgo, if_pos ⟨hle, by omega⟩]
      simp [start_sum]
    | succ k =>
      have hj' : rest.get? k = some p := hj
      simp only [start_sum] at hle hlt
      have hcond : ¬ (cc ≤ o ∧ o < cc + q.length) := by
        rintro ⟨h1, h2⟩
        omega
      rw [hgo, if_neg hcond]
      have hdrop' : lines.drop (ln + 1 - 1) = rest := by
        have h1 : lines.drop ln = rest := by
          have h2 : (lines.drop (ln - 1)).drop 1 = lines.drop ((ln - 1) + 1) :=
            List.drop_drop 1 (ln - 1) lines
          rw [hdrop] at h2
          have h3 : (ln - 1) + 1 = ln := by omega
          rw [h3] at h2
          exact h2.symm ▸ rfl
        simpa using h1
      have hres := ih lines (cc + q.length + 1) (ln + 1) k p o hdrop' (by omega) hj'
        (by omega) (by omega)
      rw [hres]
      have harith1 : ln + 1 + k = ln + (k + 1) := by omega
      have harith2 : cc + q.length + 1 + start_sum rest k =
          cc + start_sum (q :: rest) (k + 1) := by
        simp only [start_sum]
        omega
      rw [harith1, harith2]

/-- With no carriage return in the text, every `str::lines` piece is already
carriage-return free, so the per-piece strip is the identity. -/
theorem rust_lines_of_no_cr (t : List Char) (hcr : '\r' ∉ t) :
    rust_lines t = drop_last_empty (lines_split t) := by
  unfold rust_lines
  have hmem : ∀ p ∈ drop_last_empty (lines_split t), '\r' ∉ p := by
    intro p hp hmemr
    have hp' : p ∈ lines_split t := by
      unfold drop_last_empty at hp
      split at hp
      · exact (List.dropLast_sublist _).subset hp
      · exact hp
    exact hcr (mem_of_mem_lines_split t p hp' '\r' hmemr)
  have : ∀ p ∈ drop_last_empty (lines_split t), rstrip_cr p = p := by
    intro p hp
    unfold rstrip_cr
    rw [if_neg]
    intro hlast
    rcases List.mem_getLast?_eq_getLast (Option.mem_def.mpr hlast) with ⟨hne, heq⟩
    exact hmem p hp (heq ▸ List.getLast_mem hne)
  calc (drop_last_empty (lines_split t)).map rstrip_cr
      = (drop_last_empty (lines_split t)).map id := List.map_congr_left this
    _ = drop_last_empty (lines_split t) := List.map_id _

/-- C7 amended: for a carriage-return-free text, position lookup at any
non-newline content offset — in particular at the start of any token span —
returns the 1-based line containing the offset and the exact column
`offset - line_start + 1`, and never reaches the `unreachable!()` branch.
(The C7 counterexample shows the restriction to carriage-return-free texts is
necessary.) -/
theorem c7_amended (t : List Char) (o : Nat) (c : Char) (hcr : '\r' ∉ t)
    (hget : t.get? o = some c) (hnl : c ≠ '\n') :
    get_line_and_column t o = some ⟨line_of t o, column_of t o⟩ := by
  have hne := lines_split_ne_nil t
  have hnn := newline_not_mem_lines_split t
  have hjoin := joinNl_lines_split t
  obtain ⟨j, p, hj, hle, hlt, hcount, hstart⟩ :=
    join_content_pos (lines_split t) hne hnn o c (by rwa [hjoin]) hnl
  rw [hjoin] at hcount hstart
  have hrs := rust_lines_of_no_cr t hcr
  have hline : line_of t o = 1 + j := by
    unfold line_of
    rw [hcount]
  have hcol : column_of t o = o - start_sum (lines_split t) j + 1 := by
    unfold column_of
    rw [hstart]
  unfold get_line_and_column
  rw [hrs]
  by_cases hlast : (lines_split t).getLast? = some []
  · -- the text ends with a newline: the final empty piece is dropped,
    -- and no content offset lies in it
    have hps' : drop_last_empty (lines_split t) = (lines_split t).dropLast := by
      unfold drop_last_empty
      rw [if_pos hlast]
    have hjlen : j < (lines_split t).length := (List.get?_eq_some.mp hj).1
    have hplen : 0 < p.length := by omega
    have hjne : j ≠ (lines_split t).length - 1 := by
      intro hj1
      rw [List.getLast?_eq_get?, ← hj1, hj] at hlast
      have : p = [] := by injection hlast
      rw [this] at hplen
      exact absurd hplen (by simp)
    have hjlt : j < (lines_split t).dropLast.length := by
      rw [List.length_dropLast]
      omega
    have hsplit : (lines_split t).dropLast ++ [(lines_split t).getLast hne] =
        lines_split t := List.dropLast_append_getLast hne
    have hj2 : (lines_split t).dropLast.get? j = some p := by
      rw [← hsplit] at hj
      rwa [List.get?_append hjlt] at hj
    have hss : start_sum ((lines_split t).dropLast ++
        [(lines_split t).getLast hne]) j = start_sum (lines_split t).dropLast j :=
      start_sum_append _ _ j hjlt
    rw [hsplit] at hss
    rw [hps']
    have := lookup_go_finds (lines_split t).dropLast (lines_split t).dropLast 0 1 j p o
      (by simp) le_rfl hj2 (by omega) (by omega)
    rw [this, hline, hcol]
    have : (0 : Nat) + start_sum (lines_split t).dropLast j =
        start_sum (lines_split t) j := by omega
    rw [this]
  · have hps' : drop_last_empty (lines_split t) = lines_split t := by
      unfold drop_last_empty
      rw [if_neg hlast]
    rw [hps']
    have := lookup_go_finds (lines_split t) (lines_split t) 0 1 j p o
      (by simp) le_rfl hj (by omega) (by omega)
    rw [this, hline, hcol]
    have hz : (0 : Nat) + start_sum (lines_split t) j =
        start_sum (lines_split t) j := by omega
    rw [hz]

/-- Concrete instance of the C7 amended theorem: in `"ab\n\ncd"` the offset 4
(the `c`) is on line 3, column 1. -/
theorem c7_amended_witness :
    get_line_and_column (String.data "ab\n\ncd") 4 =
      some ⟨line_of (String.data "ab\n\ncd") 4, column_of (String.data "ab\n\ncd") 4⟩ :=
  c7_amended (String.data "ab\n\ncd") 4 'c' (by decide) (by decide) (by decide)

/-- C7 counterexample: in the carriage-return file `"a\r\nb"` the offset 3 is
the start of the token `b` (a non-whitespace content position), yet lookup
exhausts the table and reaches the `unreachable!()` branch — `str::lines`
strips the `\r` but the start-offset bookkeeping does not account for it. -/
theorem c7_counterexample :
    token_start_pos (String.data "a\r\nb") 3 = true ∧
    get_line_and_column (String.data "a\r\nb") 3 = none := by
  refine ⟨by decide, by decide⟩

end LC3
